import Mathlib

/-!
Verification of the errnumgen repository.

The development shallowly embeds the core of the repository:

* the byte-range splicing of `Generator.Generate` (pkg/generator): pending
  edits applied from the highest start offset to the lowest against the
  already-updated buffer;
* the discovery walk of `Parser.Parse` / `parseFunction` /
  `findResultParamIdx` / `parseResultParams` (pkg/parser);
* the classifier and counter recovery of `Generator.ParseRetParam`;
* the identifier assignment of `Generator.Generate` and the companion-file
  constant block of `Generator.genOutputFile`;
* the declaration filter `filterPackageDecls` and the package-count check of
  `parser.New`.

Strings are modelled with Lean `String` / `List Char`; Go byte offsets become
list indices, and the decimal printing and parsing done by `fmt.Sprintf` and
`strconv.Atoi` are modelled by executable decimal functions proved to
round-trip.
-/

namespace Errnumgen

/-! ## FileEditApplier: descending-offset splicing (`Generator.Generate`)

A `TextEdit` names a half-open byte range `[start, stop)` of the original file
content plus replacement text.  `Generate` walks the scheduled edits from the
last (highest offset) to the first, each time splicing
`content[0:start] ++ replacement ++ content[stop:]` against the
already-updated buffer, while offsets keep referring to the original file. -/

structure TextEdit where
  start : Nat
  stop : Nat
  repl : List Char

/-- One splice step, exactly `content[0:start] + replacement + content[stop:]`
from `Generator.Generate`. -/
def applyEdit (c : List Char) (e : TextEdit) : List Char :=
  c.take e.start ++ e.repl ++ c.drop e.stop

/-- The edit list is kept in ascending source order (discovery order);
`Generate` iterates it from the end, so the edit with the highest offsets is
spliced first and every later splice sees the already-updated buffer. -/
def applyDesc (es : List TextEdit) (c : List Char) : List Char :=
  es.foldr (fun e acc => applyEdit acc e) c

/-- Start offset of the first edit of the list, or the sentinel `n` (used as
the content length) when no edit remains. -/
def fstStart (es : List TextEdit) (n : Nat) : Nat :=
  match es with
  | [] => n
  | e :: _ => e.start

/-- Well-formed edit schedule for content of length `n`: ranges are ordered,
non-overlapping (`stop ≤` next `start`) and within bounds. -/
def editsOKb : List TextEdit → Nat → Bool
  | [], _ => true
  | e :: es, n =>
      decide (e.start ≤ e.stop) && decide (e.stop ≤ fstStart es n) && editsOKb es n

/-- Reference decomposition of the spliced output: verbatim original bytes
from position `p` up to the next edit's start, then the replacement, then the
rest.  Every byte outside the edited ranges is by construction a verbatim
slice of the original content. -/
def specFrom (p : Nat) : List TextEdit → List Char → List Char
  | [], c => c.drop p
  | e :: es, c => (c.take e.start).drop p ++ e.repl ++ specFrom e.stop es c

/-- The frame-respecting decomposition of the whole output. -/
def spliceSpec (es : List TextEdit) (c : List Char) : List Char :=
  specFrom 0 es c

/-- Offset adjustment after applying edit `e` earlier in the file: later
offsets move by the replacement length minus the removed range length. -/
def shiftBy (e : TextEdit) (x : Nat) : Nat :=
  x + e.repl.length - (e.stop - e.start)

/-- `shiftEdit e` recomputes a later edit's coordinates against the buffer
obtained after applying `e`. -/
def shiftEdit (e : TextEdit) (d : TextEdit) : TextEdit :=
  ⟨shiftBy e d.start, shiftBy e d.stop, d.repl⟩

/-- Applying the edits one at a time, lowest offset first, recomputing the
offsets of all remaining edits against the current buffer after each step. -/
def applySeq : List TextEdit → List Char → List Char
  | [], c => c
  | e :: es, c => applySeq (es.map (shiftEdit e)) (applyEdit c e)
termination_by es _ => es.length
decreasing_by simp [List.length_map]

theorem editsOKb_cons {e : TextEdit} {es : List TextEdit} {n : Nat}
    (h : editsOKb (e :: es) n = true) :
    e.start ≤ e.stop ∧ e.stop ≤ fstStart es n ∧ editsOKb es n = true := by
  simp [editsOKb] at h
  exact ⟨h.1.1, h.1.2, h.2⟩

theorem fstStart_le {es : List TextEdit} {n : Nat}
    (h : editsOKb es n = true) : fstStart es n ≤ n := by
  induction es with
  | nil => simp [fstStart]
  | cons e es ih =>
      obtain ⟨h1, h2, h3⟩ := editsOKb_cons h
      have := ih h3
      simp only [fstStart]
      omega

theorem editsOKb_head_le {e : TextEdit} {es : List TextEdit} {n : Nat}
    (h : editsOKb (e :: es) n = true) : e.start ≤ e.stop ∧ e.stop ≤ n := by
  obtain ⟨h1, h2, h3⟩ := editsOKb_cons h
  exact ⟨h1, le_trans h2 (fstStart_le h3)⟩

theorem applyEdit_length {c : List Char} {e : TextEdit}
    (hs : e.start ≤ e.stop) (hn : e.stop ≤ c.length) :
    (applyEdit c e).length = e.start + e.repl.length + (c.length - e.stop) := by
  simp [applyEdit, List.length_take, List.length_drop]
  omega

theorem specFrom_drop {es : List TextEdit} {c : List Char} {p k : Nat}
    (h : editsOKb es c.length = true) (hp : p + k ≤ fstStart es c.length) :
    (specFrom p es c).drop k = specFrom (p + k) es c := by
  have hpk : k + p = p + k := Nat.add_comm k p
  cases es with
  | nil =>
      simp only [specFrom, List.drop_drop, hpk]
  | cons e es =>
      obtain ⟨h1, h2, h3⟩ := editsOKb_cons h
      have hsn : e.stop ≤ c.length := le_trans h2 (fstStart_le h3)
      have hstart : p + k ≤ e.start := hp
      have hlen : k ≤ ((c.take e.start).drop p).length := by
        simp [List.length_drop, List.length_take]
        omega
      simp only [specFrom, List.append_assoc]
      rw [List.drop_append_of_le_length hlen, List.drop_drop]

theorem specFrom_take {es : List TextEdit} {c : List Char} {k : Nat}
    (h : editsOKb es c.length = true) (hk : k ≤ fstStart es c.length) :
    (specFrom 0 es c).take k = c.take k := by
  cases es with
  | nil =>
      simp [specFrom]
  | cons e es =>
      obtain ⟨h1, h2, h3⟩ := editsOKb_cons h
      have hsn : e.start ≤ c.length :=
        le_trans h1 (le_trans h2 (fstStart_le h3))
      have hke : k ≤ e.start := hk
      have hlen : k ≤ ((c.take e.start).drop 0).length := by
        simp [List.length_take]
        omega
      simp only [specFrom, List.append_assoc]
      rw [List.take_append_of_le_length hlen]
      simp only [List.drop_zero, List.take_take]
      congr 1
      omega

theorem applyDesc_eq_spliceSpec {es : List TextEdit} {c : List Char}
    (h : editsOKb es c.length = true) : applyDesc es c = spliceSpec es c := by
  induction es with
  | nil => rfl
  | cons e es ih =>
      obtain ⟨h1, h2, h3⟩ := editsOKb_cons h
      have hdesc : applyDesc (e :: es) c = applyEdit (applyDesc es c) e := rfl
      rw [hdesc, ih h3]
      show (spliceSpec es c).take e.start ++ e.repl ++ (spliceSpec es c).drop e.stop
          = spliceSpec (e :: es) c
      have htake : (specFrom 0 es c).take e.start = c.take e.start :=
        specFrom_take h3 (le_trans h1 h2)
      have hdrop : (specFrom 0 es c).drop e.stop = specFrom e.stop es c := by
        have := specFrom_drop (p := 0) (k := e.stop) h3 (by simpa using h2)
        simpa using this
      simp only [spliceSpec] at *
      rw [htake, hdrop]
      simp [specFrom]

theorem editsOKb_shift :
    ∀ (es : List TextEdit) (n : Nat) (e : TextEdit),
      e.start ≤ e.stop → e.stop ≤ n → e.stop ≤ fstStart es n →
      editsOKb es n = true →
      editsOKb (es.map (shiftEdit e)) (e.start + e.repl.length + (n - e.stop)) = true := by
  intro es
  induction es with
  | nil => intro n e _ _ _ _; rfl
  | cons d es ih =>
      intro n e he hen hfst hok
      obtain ⟨hd1, hd2, hd3⟩ := editsOKb_cons hok
      have htd : e.stop ≤ d.start := by simpa [fstStart] using hfst
      have hds_n : d.stop ≤ n := le_trans hd2 (fstStart_le hd3)
      have hfst' : e.stop ≤ fstStart es n := le_trans (le_trans htd hd1) hd2
      have hih := ih n e he hen hfst' hd3
      simp only [List.map_cons, editsOKb, Bool.and_eq_true, decide_eq_true_eq]
      refine ⟨⟨?_, ?_⟩, hih⟩
      · simp only [shiftEdit, shiftBy]
        omega
      · cases es with
        | nil =>
            simp only [shiftEdit, List.map_nil, fstStart, shiftBy]
            omega
        | cons d' es' =>
            have htd' : d.stop ≤ d'.start := by simpa [fstStart] using hd2
            simp only [shiftEdit, List.map_cons, fstStart, shiftBy]
            omega

theorem specFrom_shift :
    ∀ (es : List TextEdit) (e : TextEdit) (c : List Char),
      e.start ≤ e.stop → e.stop ≤ c.length → e.stop ≤ fstStart es c.length →
      editsOKb es c.length = true →
      specFrom 0 (es.map (shiftEdit e)) (applyEdit c e)
        = c.take e.start ++ e.repl ++ specFrom e.stop es c := by
  intro es
  induction es with
  | nil =>
      intro e c he hen _ _
      simp [specFrom, applyEdit]
  | cons d es ih =>
      intro e c he hen hfst hok
      obtain ⟨hd1, hd2, hd3⟩ := editsOKb_cons hok
      have htd : e.stop ≤ d.start := by simpa [fstStart] using hfst
      have hds_n : d.stop ≤ c.length := le_trans hd2 (fstStart_le hd3)
      have hda_n : d.start ≤ c.length := le_trans hd1 hds_n
      have hs_n : e.start ≤ c.length := le_trans he hen
      have hfst' : e.stop ≤ fstStart es c.length := le_trans (le_trans htd hd1) hd2
      have hlen_take : (c.take e.start).length = e.start := by
        simp [List.length_take]; omega
      have hlenc' : (applyEdit c e).length
          = e.start + e.repl.length + (c.length - e.stop) :=
        applyEdit_length he hen
      -- value of the shifted start offset
      have hsa : shiftBy e d.start
          = (c.take e.start).length + (e.repl.length + (d.start - e.stop)) := by
        rw [hlen_take]
        simp only [shiftBy]
        omega
      have hsb : shiftBy e d.stop
          = (e.start + e.repl.length) + (d.stop - e.stop) := by
        simp only [shiftBy]; omega
      -- Step A: the take part of the head edit
      have hA : (applyEdit c e).take (shiftBy e d.start)
          = c.take e.start ++ e.repl ++ (c.take d.start).drop e.stop := by
        rw [hsa]
        simp only [applyEdit, List.append_assoc]
        rw [List.take_append, List.take_append, List.take_drop]
        rw [show e.stop + (d.start - e.stop) = d.start by omega]
      -- shiftedness facts for the tail
      have hokmap : editsOKb (es.map (shiftEdit e)) (applyEdit c e).length = true := by
        rw [hlenc']
        exact editsOKb_shift es c.length e he hen hfst' hd3
      have hfstmap : shiftBy e d.stop ≤ fstStart (es.map (shiftEdit e)) (applyEdit c e).length := by
        cases es with
        | nil =>
            simp only [List.map_nil, fstStart, hlenc', shiftBy]
            omega
        | cons d' es' =>
            have htd' : d.stop ≤ d'.start := by simpa [fstStart] using hd2
            simp only [List.map_cons, fstStart, shiftEdit, shiftBy]
            omega
      -- Step B: the tail via marker shifting and the inner induction hypothesis
      have hB : specFrom (shiftBy e d.stop) (es.map (shiftEdit e)) (applyEdit c e)
          = specFrom d.stop es c := by
        have hdrop := @specFrom_drop (es.map (shiftEdit e)) (applyEdit c e)
          0 (shiftBy e d.stop) hokmap (by simpa using hfstmap)
        rw [Nat.zero_add] at hdrop
        rw [← hdrop, ih e c he hen hfst' hd3]
        rw [hsb]
        have hlen2 : (c.take e.start ++ e.repl).length = e.start + e.repl.length := by
          simp [List.length_take]; omega
        rw [← hlen2, List.drop_append]
        have := @specFrom_drop es c e.stop (d.stop - e.stop) hd3 (by omega)
        rw [this]
        congr 1
        omega
      show specFrom 0 (shiftEdit e d :: es.map (shiftEdit e)) (applyEdit c e)
          = c.take e.start ++ e.repl ++ specFrom e.stop (d :: es) c
      simp only [specFrom, shiftEdit, List.drop_zero]
      rw [hA, hB]
      simp [List.append_assoc]

theorem applySeq_eq_spliceSpec :
    ∀ (es : List TextEdit) (c : List Char), editsOKb es c.length = true →
      applySeq es c = spliceSpec es c
  | [], c, _ => by simp [applySeq, spliceSpec, specFrom]
  | e :: es, c, h => by
      obtain ⟨h1, h2, h3⟩ := editsOKb_cons h
      have hen : e.stop ≤ c.length := le_trans h2 (fstStart_le h3)
      have hokmap : editsOKb (es.map (shiftEdit e)) (applyEdit c e).length = true := by
        rw [applyEdit_length h1 hen]
        exact editsOKb_shift es c.length e h1 hen h2 h3
      have hrec := applySeq_eq_spliceSpec (es.map (shiftEdit e)) (applyEdit c e) hokmap
      have hstep : applySeq (e :: es) c
          = applySeq (es.map (shiftEdit e)) (applyEdit c e) := by
        simp [applySeq]
      rw [hstep, hrec]
      unfold spliceSpec
      rw [specFrom_shift es e c h1 hen h2 h3]
      simp [specFrom]
termination_by es _ _ => es.length
decreasing_by simp [List.length_map]

/-- C1: for a file with non-overlapping scheduled edits (half-open byte
ranges into the original content plus replacement text), applying them in
strictly descending start-offset order by splicing
`content[0:start] ++ replacement ++ content[stop:]` against the
already-updated buffer (`applyDesc`, as `Generator.Generate` does) yields the
frame-respecting decomposition `spliceSpec` — every byte outside the edited
ranges is a verbatim slice of the original — and is byte-identical to
applying the edits one at a time with offsets recomputed after each step
(`applySeq`). -/
theorem c1_offset_safety (es : List TextEdit) (c : List Char)
    (h : editsOKb es c.length = true) :
    applyDesc es c = spliceSpec es c ∧ applyDesc es c = applySeq es c := by
  have hd := applyDesc_eq_spliceSpec h
  have hs := applySeq_eq_spliceSpec es c h
  exact ⟨hd, by rw [hd, hs]⟩

/-- Concrete witness edits for C1 (two non-overlapping edits). -/
def c1WitEdits : List TextEdit :=
  [⟨1, 2, ['X', 'Y']⟩, ⟨4, 5, ['Z']⟩]

/-- Concrete witness content for C1. -/
def c1WitContent : List Char :=
  ['a', 'b', 'c', 'd', 'e', 'f']

/-- Witness for C1 at a concrete file and edit schedule. -/
theorem c1_offset_safety_witness :
    editsOKb c1WitEdits c1WitContent.length = true ∧
      (applyDesc c1WitEdits c1WitContent = spliceSpec c1WitEdits c1WitContent ∧
        applyDesc c1WitEdits c1WitContent = applySeq c1WitEdits c1WitContent) :=
  ⟨by decide, c1_offset_safety c1WitEdits c1WitContent (by decide)⟩

/-! ## Decimal numerals

`Generator` prints identifier numbers with `fmt.Sprintf("%v", num)` and
parses them back (when harvesting `N_<k>` constants) with `strconv.Atoi`.
Both are modelled executably: `natToStr` prints a natural in decimal and
`atoi` accepts a nonempty all-digit string (the nonnegative decimal forms;
signed forms accepted by `strconv.Atoi` never occur in generated constant
names and are not modelled). -/

/-- The decimal digit character for `d < 10` (clamped at nine). -/
def digitChar (d : Nat) : Char :=
  match d with
  | 0 => '0'
  | 1 => '1'
  | 2 => '2'
  | 3 => '3'
  | 4 => '4'
  | 5 => '5'
  | 6 => '6'
  | 7 => '7'
  | 8 => '8'
  | _ => '9'

/-- Decimal digits of `n`, most significant first; never empty. -/
def natDigits (n : Nat) : List Nat :=
  if n < 10 then [n] else natDigits (n / 10) ++ [n % 10]
termination_by n
decreasing_by exact Nat.div_lt_self (by omega) (by omega)

/-- Decimal rendering of a natural number, as `fmt.Sprintf("%v", n)` does. -/
def natToStr (n : Nat) : String :=
  String.mk ((natDigits n).map digitChar)

/-- ASCII decimal digit test. -/
def isDigit (c : Char) : Bool :=
  decide ('0' ≤ c) && decide (c ≤ '9')

/-- Numeric value of an ASCII digit character. -/
def digitVal (c : Char) : Nat :=
  c.toNat - 48

/-- Accumulating decimal parse; fails on the first non-digit. -/
def readDigits : List Char → Nat → Option Nat
  | [], acc => some acc
  | c :: rest, acc =>
      if isDigit c then readDigits rest (acc * 10 + digitVal c) else none

/-- Model of `strconv.Atoi` on the nonnegative decimal forms. -/
def atoi (s : String) : Option Nat :=
  match s.data with
  | [] => none
  | l => readDigits l 0

theorem natDigits_ne_nil (n : Nat) : natDigits n ≠ [] := by
  rw [natDigits]
  split <;> simp

theorem readDigits_digit {d : Nat} (hd : d < 10) (rest : List Char) (a : Nat) :
    readDigits (digitChar d :: rest) a = readDigits rest (a * 10 + d) := by
  interval_cases d <;> rfl

theorem readDigits_natDigits (n : Nat) :
    ∀ (rest : List Char) (a : Nat),
      readDigits ((natDigits n).map digitChar ++ rest) a
        = readDigits rest (a * 10 ^ (natDigits n).length + n) := by
  induction n using Nat.strong_induction_on with
  | _ n ih =>
      intro rest a
      rw [natDigits]
      by_cases h : n < 10
      · simp only [if_pos h, List.map_cons, List.map_nil, List.length_cons,
          List.length_nil, List.cons_append, List.nil_append]
        rw [readDigits_digit h]
        norm_num
      · have hdiv : n / 10 < n := Nat.div_lt_self (by omega) (by omega)
        simp only [if_neg h, List.map_append, List.map_cons, List.map_nil,
          List.length_append, List.length_cons, List.length_nil, List.append_assoc,
          List.cons_append, List.nil_append]
        rw [ih (n / 10) hdiv]
        rw [readDigits_digit (Nat.mod_lt n (by omega))]
        congr 1
        have hmod : 10 * (n / 10) + n % 10 = n := Nat.div_add_mod n 10
        have hpow : 10 ^ ((natDigits (n / 10)).length + 1)
            = 10 ^ (natDigits (n / 10)).length * 10 := pow_succ 10 _
        rw [hpow]
        ring_nf
        omega

theorem atoi_natToStr (n : Nat) : atoi (natToStr n) = some n := by
  have hdata : (natToStr n).data = (natDigits n).map digitChar := rfl
  have hne : (natDigits n).map digitChar ≠ [] := by
    intro hcontra
    exact natDigits_ne_nil n (List.map_eq_nil_iff.mp hcontra)
  cases hl : (natDigits n).map digitChar with
  | nil => exact absurd hl hne
  | cons c cs =>
      have hred : atoi (natToStr n) = readDigits (c :: cs) 0 := by
        unfold atoi
        rw [hdata, hl]
      rw [hred, ← hl]
      have := readDigits_natDigits n [] 0
      simpa [readDigits] using this

/-! ## Go AST model (pkg/parser and pkg/generator)

Only the syntactic shapes the repository inspects are modelled: identifiers,
selector expressions `X.Sel`, call expressions, and a catch-all for every
other expression form (`lit`).  Result fields keep the grouped-names
representation of `ast.FieldList` (one field may carry several names). -/

/-- A result type node: an `ast.Ident` or any other type expression. -/
inductive TypeExpr where
  | ident (name : String)
  | otherType (text : String)

/-- One entry of a result `ast.FieldList`: possibly several names sharing one
declared type (`s1, s2 string`). -/
structure ResultField where
  names : List String
  type : TypeExpr

/-- Number of positional slots contributed by one field, as counted both by
`findResultParamIdx` and by `ast.FieldList.NumFields`. -/
def slotCount (f : ResultField) : Nat :=
  if f.names.length > 0 then f.names.length else 1

/-- `ast.FieldList.NumFields`: total number of positional result slots. -/
def numFields : List ResultField → Nat
  | [] => 0
  | f :: rest => slotCount f + numFields rest

/-- Accumulating loop of `Parser.findResultParamIdx`: walks the result fields
left to right, stopping at the first field whose type is the identifier
`error`, counting grouped names as multiple slots. -/
def findResultParamIdxGo : List ResultField → Nat → Option Nat
  | [], _ => none
  | res :: rest, cnt =>
      match res.type with
      | .ident nm =>
          if nm = "error" then some cnt
          else findResultParamIdxGo rest (cnt + slotCount res)
      | _ => findResultParamIdxGo rest (cnt + slotCount res)

/-- `Parser.findResultParamIdx`; the Go function returns `-1` when no error
result exists, modelled here as `none`. -/
def findResultParamIdx (results : List ResultField) : Option Nat :=
  findResultParamIdxGo results 0

/-- Expression nodes: `ast.Ident`, `ast.SelectorExpr`, `ast.CallExpr`, and a
catch-all for every other expression form. -/
inductive Expr where
  | ident (name : String)
  | sel (x : Expr) (selName : String)
  | call (fn : Expr) (args : List Expr)
  | lit (text : String)

/-- Heads of `strings.CutPrefix` at the character-list level. -/
def cutL : List Char → List Char → Option (List Char)
  | [], s => some s
  | _ :: _, [] => none
  | a :: p, b :: s => if a = b then cutL p s else none

/-- `strings.CutPrefix`: the remainder after the prefix, or `none`. -/
def cutPfx (p s : String) : Option String :=
  (cutL p.data s.data).map String.mk

/-- The fixed constant prefix `constErrPrefix = "N_"` of pkg/generator. -/
def constErrPfx : String := "N_"

/-- `Generator.ParseRetParam`: decides whether a candidate return expression
is already wrapped (skip) and, when the first argument parses as
`<prefix><digits>`, raises the recovered counter to that number.  Mirrors the
source's early returns: skip is already true before any argument is
inspected. -/
def parseRetParam (outPkg : String) (retParam : Expr) (lastErrNum : Nat) :
    Bool × Nat :=
  match retParam with
  | .call fn args =>
      match fn with
      | .sel x selName =>
          if selName ≠ "New" then (false, lastErrNum)
          else
            match x with
            | .ident pname =>
                if pname ≠ outPkg then (false, lastErrNum)
                else if args.length ≠ 2 then (true, lastErrNum)
                else
                  match args with
                  | numArg :: _ =>
                      match numArg with
                      | .sel _ numName =>
                          match cutPfx constErrPfx numName with
                          | some numStr =>
                              match atoi numStr with
                              | some num =>
                                  (true, if lastErrNum < num then num else lastErrNum)
                              | none => (true, lastErrNum)
                          | none => (true, lastErrNum)
                      | _ => (true, lastErrNum)
                  | [] => (true, lastErrNum)
            | _ => (false, lastErrNum)
      | _ => (false, lastErrNum)
  | _ => (false, lastErrNum)

/-- The `retParam.(*ast.Ident)` / `Name == "nil"` test of
`Parser.parseResultParams`. -/
def isNilIdent (e : Expr) : Bool :=
  match e with
  | .ident nm => nm == "nil"
  | _ => false

/-- Discovery state threaded through `Parser.Parse` with the generator's
callback wired in (as `main.go` does): the collected error nodes of the
package, in discovery order, and the generator's `lastErrNum`. -/
structure PState where
  errsToEdit : List Expr
  lastErrNum : Nat

/-- `Parser.parseResultParams` with `RetParamParser = Generator.ParseRetParam`:
arity-mismatching return statements are skipped silently (logged only), the
`nil` identifier is skipped, skip-classified candidates only update the
counter, and every other candidate is appended to the found errors.  The Go
code indexes `Results[retErrIdx]` unguarded; the unreachable out-of-range
case keeps the state. -/
def parseResultParams (outPkg : String) (retErrIdx retNumFields : Nat)
    (results : List Expr) (st : PState) : PState :=
  if results.length ≠ retNumFields then st
  else
    match results[retErrIdx]? with
    | none => st
    | some retParam =>
        if isNilIdent retParam then st
        else
          let r := parseRetParam outPkg retParam st.lastErrNum
          if r.1 then { st with lastErrNum := r.2 }
          else { errsToEdit := st.errsToEdit ++ [retParam], lastErrNum := r.2 }

/-- Statement-level syntax visited by the `ast.Inspect` walk of
`Parser.parseFunction`: return statements, anonymous function literals
(wherever they occur below a statement), and any other node with children. -/
inductive Stmt where
  | ret (results : List Expr)
  | funcLit (results : List ResultField) (body : List Stmt)
  | block (stmts : List Stmt)

mutual

/-- One visitor step of `Parser.parseFunction`'s `ast.Inspect`: a return
statement is handed to `parseResultParams` (children not visited), a function
literal restarts `parseFunction` with its own type and body (children not
visited), anything else is traversed. -/
def walkStmt (outPkg : String) (retErrIdx retNumFields : Nat) (st : PState) :
    Stmt → PState
  | .ret results => parseResultParams outPkg retErrIdx retNumFields results st
  | .funcLit results body => parseFunction outPkg st results body
  | .block stmts => walkStmts outPkg retErrIdx retNumFields st stmts
termination_by s => (sizeOf s, 2)
decreasing_by all_goals (simp_wf; omega)

/-- The statement list of a body, visited in source order. -/
def walkStmts (outPkg : String) (retErrIdx retNumFields : Nat) (st : PState) :
    List Stmt → PState
  | [] => st
  | s :: rest =>
      walkStmts outPkg retErrIdx retNumFields
        (walkStmt outPkg retErrIdx retNumFields st s) rest
termination_by l => (sizeOf l, 0)
decreasing_by all_goals (simp_wf; omega)

/-- `Parser.parseFunction`: computes the function's own error-result index;
when there is none (`-1` in Go) the body is not walked at all. -/
def parseFunction (outPkg : String) (st : PState) (results : List ResultField)
    (body : List Stmt) : PState :=
  match findResultParamIdx results with
  | none => st
  | some idx => walkStmts outPkg idx (numFields results) st body
termination_by (sizeOf body, 1)
decreasing_by all_goals omega

end

/-- A function declaration as it reaches `Parser.Parse` after filtering: the
declared result fields and the body's statement list. -/
structure FuncDecl where
  results : List ResultField
  body : List Stmt

/-- The declaration loop of `Parser.Parse` over one package's retained
function declarations, in file order then source order. -/
def parseFuncs (outPkg : String) (st : PState) : List FuncDecl → PState
  | [] => st
  | d :: rest => parseFuncs outPkg (parseFunction outPkg st d.results d.body) rest

/-- The reparsed AST of the replacement text
`fmt.Sprintf("%s.New(%s.%s%v, %s)", out, out, constErrPrefix, errNum, orig)`
synthesized by `Generator.Generate`: a call of `<out>.New` whose first
argument is the qualified constant `<out>.N_<k>` and whose second argument is
the original expression. -/
def wrapExpr (outPkg : String) (k : Nat) (e : Expr) : Expr :=
  .call (.sel (.ident outPkg) "New")
    [.sel (.ident outPkg) (constErrPfx ++ natToStr k), e]

mutual

/-- The AST image of the first run's textual rewrite on one statement:
each return site the run schedules (arity matches, slot not `nil`, not
already wrapped) has its error-slot expression replaced by the synthesized
wrapper carrying the next counter value; everything else is left untouched.
The counter `c` is threaded in discovery order, matching the numbers
`lastErrNum + i + 1` that `Generator.Generate` assigns along the package's
node slice. -/
def rwStmt (outPkg : String) (retErrIdx retNumFields : Nat) (c : Nat) :
    Stmt → Stmt × Nat
  | .ret results =>
      if results.length ≠ retNumFields then (.ret results, c)
      else
        match results[retErrIdx]? with
        | none => (.ret results, c)
        | some retParam =>
            if isNilIdent retParam then (.ret results, c)
            else if (parseRetParam outPkg retParam 0).1 then (.ret results, c)
            else
              (.ret (results.set retErrIdx (wrapExpr outPkg (c + 1) retParam)), c + 1)
  | .funcLit results body =>
      let r := rwFunction outPkg c results body
      (.funcLit results r.1, r.2)
  | .block stmts =>
      let r := rwStmts outPkg retErrIdx retNumFields c stmts
      (.block r.1, r.2)
termination_by s => (sizeOf s, 2)
decreasing_by all_goals (simp_wf; omega)

/-- List version of `rwStmt`, threading the counter left to right. -/
def rwStmts (outPkg : String) (retErrIdx retNumFields : Nat) (c : Nat) :
    List Stmt → List Stmt × Nat
  | [] => ([], c)
  | s :: rest =>
      let r1 := rwStmt outPkg retErrIdx retNumFields c s
      let r2 := rwStmts outPkg retErrIdx retNumFields r1.2 rest
      (r1.1 :: r2.1, r2.2)
termination_by l => (sizeOf l, 0)
decreasing_by all_goals (simp_wf; omega)

/-- Function-level rewrite: like discovery, a function without an error
result is not entered. -/
def rwFunction (outPkg : String) (c : Nat) (results : List ResultField)
    (body : List Stmt) : List Stmt × Nat :=
  match findResultParamIdx results with
  | none => (body, c)
  | some idx => rwStmts outPkg idx (numFields results) c body
termination_by (sizeOf body, 1)
decreasing_by all_goals omega

end

/-- Rewrite of a package's declaration list, threading the counter. -/
def rwFuncs (outPkg : String) (c : Nat) :
    List FuncDecl → List FuncDecl × Nat
  | [] => ([], c)
  | d :: rest =>
      let r1 := rwFunction outPkg c d.results d.body
      let r2 := rwFuncs outPkg r1.2 rest
      (⟨d.results, r1.1⟩ :: r2.1, r2.2)

/-! ## Identifier assignment (`Generator.Generate`)

`Generate` walks one package's node slice from the last index down to `0`,
assigning `errNum := g.lastErrNum + i + 1` to the node at index `i`, and
afterwards advances `g.lastErrNum` by the slice length before the next
package of the `errNodesMap` iteration. -/

/-- Numbers assigned to one package's nodes: the node at slice index `i`
receives `lastErrNum + i + 1`. -/
def assignPkg (lastErrNum : Nat) (nodes : List Expr) : List (Expr × Nat) :=
  nodes.enum.map (fun p => (p.2, lastErrNum + p.1 + 1))

/-- The package loop of `Generate` in the order the Go map iteration happens
to produce (`for pkg, errNodes := range errNodesMap`): returns the final
counter and the per-package numbered nodes in that order. -/
def assignAll (lastErrNum : Nat) : List (List Expr) → Nat × List (List (Expr × Nat))
  | [] => (lastErrNum, [])
  | nodes :: rest =>
      let r := assignAll (lastErrNum + nodes.length) rest
      (r.1, assignPkg lastErrNum nodes :: r.2)

/-! ## Companion file (`Generator.genOutputFile`) -/

/-- One line of the const section:
`fmt.Sprintf("\t%s%v ErrNum = %v\n", constErrPrefix, i+1, i+1)`. -/
def constLine (i : Nat) : String :=
  "\t" ++ constErrPfx ++ natToStr i ++ " ErrNum = " ++ natToStr i ++ "\n"

/-- The `const (...)` block built by `genOutputFile`: one line for each
`i` in `range g.lastErrNum`, declaring the constant for `i + 1`. -/
def constBlock (lastErrNum : Nat) : String :=
  "const (\n" ++ String.join ((List.range lastErrNum).map (fun i => constLine (i + 1))) ++ ")"

/-- The name/value pairs declared by the const block, in emission order. -/
def constEntries (lastErrNum : Nat) : List (String × Nat) :=
  (List.range lastErrNum).map (fun i => (constErrPfx ++ natToStr (i + 1), i + 1))

/-- Modelled from the spec: the companion-file template `errnums.tmpl` is
embedded by pkg/generator but its text is not among the sources, so
executing the fixed template with `missingkey=invalid` on the two variables
`package_name` and `const_declarations` is modelled as an arbitrary but fixed
function `tmplExec` of those two strings; `genOutputFile` supplies the
configured output package name and the rendered const block. -/
def genOutputFile (tmplExec : String → String → String) (outPkg : String)
    (lastErrNum : Nat) : String :=
  tmplExec outPkg (constBlock lastErrNum)

/-! ## DeclarationFilter (`Parser.filterPackageDecls`) -/

/-- A top-level declaration: a function declaration or anything else. -/
inductive Decl where
  | funcDecl (fn : FuncDecl)
  | otherDecl (text : String)

/-- The error-type test of `filterPackageDecls`: among `go/ast` type nodes
only `*ast.Ident` implements `fmt.Stringer` (its `String()` is its name), so
`ret.Type.(fmt.Stringer)` + `tp.String() == "error"` holds exactly for the
identifier `error`. -/
def isErrIdent (t : TypeExpr) : Bool :=
  match t with
  | .ident nm => nm == "error"
  | _ => false

/-- The inner loop of `filterPackageDecls` over one declaration's result
fields: for EVERY error-typed field (`tp.String() == "error"` — the loop
does not stop at the first match) the declaration is written at the
compaction index `j` of the live slice and `j` is incremented.  A write at
`j ≥ len(Decls)` is Go's index-out-of-range panic, modelled as `none`. -/
def fieldStepF (d : Decl) (acc : Option (Nat × List Decl)) (ret : ResultField) :
    Option (Nat × List Decl) :=
  match acc with
  | none => none
  | some jarr =>
      if isErrIdent ret.type then
        if jarr.1 < jarr.2.length then some (jarr.1 + 1, jarr.2.set jarr.1 d)
        else none
      else some jarr

/-- One iteration of `filterPackageDecls`' retention loop: the declaration is
read at index `i` from the LIVE slice (`for _, decl := range stxFile.Decls`
reads each element from the array the compaction writes into); non-function
declarations and functions with nil or empty result lists are skipped. -/
def filterStep (arr : List Decl) (i j : Nat) : Option (Nat × List Decl) :=
  match arr[i]? with
  | none => some (j, arr)
  | some d =>
      match d with
      | .otherDecl _ => some (j, arr)
      | .funcDecl fn =>
          if fn.results.isEmpty then some (j, arr)
          else fn.results.foldl (fieldStepF d) (some (j, arr))

/-- Loop-body wrapper threading the panic state. -/
def filterLoopF (acc : Option (Nat × List Decl)) (i : Nat) :
    Option (Nat × List Decl) :=
  match acc with
  | none => none
  | some jarr => filterStep jarr.2 i jarr.1

/-- `filterPackageDecls`' per-file pass: the loop runs over the original
index range, compacting in place, and the file's declarations become the
first `j` entries (`stxFile.Decls = stxFile.Decls[:j]`); `none` is the
run-aborting index-out-of-range panic. -/
def filterFileDecls (decls : List Decl) : Option (List Decl) :=
  ((List.range decls.length).foldl filterLoopF (some (0, decls))).map
    (fun jarr => jarr.2.take jarr.1)

/-- The file loop of `filterPackageDecls`: a file is kept in `pkg.Syntax`
exactly when its retained declaration list is nonempty; the others are
removed from the fileset and excluded from further processing.  A panic in
any file aborts the whole pass. -/
def filterPkgFiles (files : List (List Decl)) : Option (List (List Decl)) :=
  files.foldl
    (fun acc f =>
      match acc with
      | none => none
      | some kept =>
          match filterFileDecls f with
          | none => none
          | some f2 => some (if f2.length > 0 then kept ++ [f2] else kept))
    (some [])

/-! ## Loader check (`parser.New`) -/

/-- Failure modes of `parser.New` after `packages.Load` succeeds. -/
inductive NewParserErr where
  | pkgLoadErrors (cnt : Nat)
  | noPackagesFound

/-- The post-load checks of `parser.New`: abort when any loaded package
reported errors, abort with the no-source error when ZERO packages were
discovered, and otherwise succeed with all discovered packages (regardless
of how many declarations they contain).  A package is its declaration
list. -/
def newParser (printErrCnt : Nat) (pkgs : List (List Decl)) :
    Except NewParserErr (List (List Decl)) :=
  if printErrCnt > 0 then .error (.pkgLoadErrors printErrCnt)
  else if pkgs.length = 0 then .error .noPackagesFound
  else .ok pkgs

/-- Total declaration count across all discovered packages. -/
def totalDecls (pkgs : List (List Decl)) : Nat :=
  (pkgs.map List.length).sum

/-! ## Pure characterizations of the discovery walk

The walk threads a state, but its control flow never reads `lastErrNum` and
never reads the collected list: the scheduled nodes and the harvested counter
maximum are pure functions of the tree.  The `sched…` and `hmax…` families
below compute them, and the decomposition lemmas identify the threaded walk
with them. -/

mutual

/-- Nodes scheduled (appended to `errsToEdit`) while visiting one statement. -/
def schedStmt (outPkg : String) (retErrIdx retNumFields : Nat) : Stmt → List Expr
  | .ret results =>
      if results.length ≠ retNumFields then []
      else
        match results[retErrIdx]? with
        | none => []
        | some retParam =>
            if isNilIdent retParam then []
            else if (parseRetParam outPkg retParam 0).1 then []
            else [retParam]
  | .funcLit results body => schedFunction outPkg results body
  | .block stmts => schedStmts outPkg retErrIdx retNumFields stmts
termination_by s => (sizeOf s, 2)
decreasing_by all_goals (simp_wf; omega)

/-- Nodes scheduled while visiting a statement list, in source order. -/
def schedStmts (outPkg : String) (retErrIdx retNumFields : Nat) : List Stmt → List Expr
  | [] => []
  | s :: rest =>
      schedStmt outPkg retErrIdx retNumFields s
        ++ schedStmts outPkg retErrIdx retNumFields rest
termination_by l => (sizeOf l, 0)
decreasing_by all_goals (simp_wf; omega)

/-- Nodes scheduled inside one function (empty when it has no error result). -/
def schedFunction (outPkg : String) (results : List ResultField)
    (body : List Stmt) : List Expr :=
  match findResultParamIdx results with
  | none => []
  | some idx => schedStmts outPkg idx (numFields results) body
termination_by (sizeOf body, 1)
decreasing_by all_goals omega

end

mutual

/-- Largest counter value harvested from already-wrapped sites in one
statement (0 when none). -/
def hmaxStmt (outPkg : String) (retErrIdx retNumFields : Nat) : Stmt → Nat
  | .ret results =>
      if results.length ≠ retNumFields then 0
      else
        match results[retErrIdx]? with
        | none => 0
        | some retParam =>
            if isNilIdent retParam then 0
            else (parseRetParam outPkg retParam 0).2
  | .funcLit results body => hmaxFunction outPkg results body
  | .block stmts => hmaxStmts outPkg retErrIdx retNumFields stmts
termination_by s => (sizeOf s, 2)
decreasing_by all_goals (simp_wf; omega)

/-- Harvest maximum over a statement list. -/
def hmaxStmts (outPkg : String) (retErrIdx retNumFields : Nat) : List Stmt → Nat
  | [] => 0
  | s :: rest =>
      max (hmaxStmt outPkg retErrIdx retNumFields s)
        (hmaxStmts outPkg retErrIdx retNumFields rest)
termination_by l => (sizeOf l, 0)
decreasing_by all_goals (simp_wf; omega)

/-- Harvest maximum inside one function. -/
def hmaxFunction (outPkg : String) (results : List ResultField)
    (body : List Stmt) : Nat :=
  match findResultParamIdx results with
  | none => 0
  | some idx => hmaxStmts outPkg idx (numFields results) body
termination_by (sizeOf body, 1)
decreasing_by all_goals omega

end

/-- Nodes scheduled over a package's declaration list. -/
def schedFuncs (outPkg : String) : List FuncDecl → List Expr
  | [] => []
  | d :: rest => schedFunction outPkg d.results d.body ++ schedFuncs outPkg rest

/-- Harvest maximum over a package's declaration list. -/
def hmaxFuncs (outPkg : String) : List FuncDecl → Nat
  | [] => 0
  | d :: rest => max (hmaxFunction outPkg d.results d.body) (hmaxFuncs outPkg rest)

theorem parseRetParam_fst (out : String) (rp : Expr) (l : Nat) :
    (parseRetParam out rp l).1 = (parseRetParam out rp 0).1 := by
  unfold parseRetParam
  repeat' split
  all_goals rfl

theorem parseRetParam_snd (out : String) (rp : Expr) (l : Nat) :
    (parseRetParam out rp l).2 = max l ((parseRetParam out rp 0).2) := by
  unfold parseRetParam
  repeat' split
  all_goals simp
  all_goals omega

mutual

theorem walkStmt_decomp (outPkg : String) (retErrIdx retNumFields : Nat)
    (col : List Expr) (l : Nat) (s : Stmt) :
    walkStmt outPkg retErrIdx retNumFields ⟨col, l⟩ s
      = ⟨col ++ schedStmt outPkg retErrIdx retNumFields s,
          max l (hmaxStmt outPkg retErrIdx retNumFields s)⟩ := by
  cases s with
  | ret results =>
      by_cases hlen : results.length ≠ retNumFields
      · simp [walkStmt, schedStmt, hmaxStmt, parseResultParams, hlen]
      · cases hget : results[retErrIdx]? with
        | none => simp [walkStmt, schedStmt, hmaxStmt, parseResultParams, hlen, hget]
        | some rp =>
            by_cases hnil : isNilIdent rp
            · simp [walkStmt, schedStmt, hmaxStmt, parseResultParams, hlen, hget, hnil]
            · have hsnd := parseRetParam_snd outPkg rp l
              by_cases hskip : (parseRetParam outPkg rp 0).1 = true
              · have hf : (parseRetParam outPkg rp l).1 = true := by
                  rw [parseRetParam_fst]; exact hskip
                simp [walkStmt, schedStmt, hmaxStmt, parseResultParams, hlen, hget,
                  hnil, hf, hskip]
                exact hsnd
              · have hf : (parseRetParam outPkg rp l).1 = false := by
                  rw [parseRetParam_fst]; simpa using hskip
                simp [walkStmt, schedStmt, hmaxStmt, parseResultParams, hlen, hget,
                  hnil, hf, hskip]
                exact hsnd
  | funcLit results body =>
      simp only [walkStmt, schedStmt, hmaxStmt]
      exact parseFunction_decomp outPkg col l results body
  | block stmts =>
      simp only [walkStmt, schedStmt, hmaxStmt]
      exact walkStmts_decomp outPkg retErrIdx retNumFields col l stmts
termination_by (sizeOf s, 2)
decreasing_by all_goals (simp_wf; omega)

theorem walkStmts_decomp (outPkg : String) (retErrIdx retNumFields : Nat)
    (col : List Expr) (l : Nat) (sl : List Stmt) :
    walkStmts outPkg retErrIdx retNumFields ⟨col, l⟩ sl
      = ⟨col ++ schedStmts outPkg retErrIdx retNumFields sl,
          max l (hmaxStmts outPkg retErrIdx retNumFields sl)⟩ := by
  cases sl with
  | nil => simp [walkStmts, schedStmts, hmaxStmts]
  | cons s rest =>
      have h1 := walkStmt_decomp outPkg retErrIdx retNumFields col l s
      have h2 := walkStmts_decomp outPkg retErrIdx retNumFields
        (col ++ schedStmt outPkg retErrIdx retNumFields s)
        (max l (hmaxStmt outPkg retErrIdx retNumFields s)) rest
      simp only [walkStmts, h1, h2, schedStmts, hmaxStmts]
      simp [List.append_assoc, Nat.max_assoc]
termination_by (sizeOf sl, 0)
decreasing_by all_goals (simp_wf; omega)

theorem parseFunction_decomp (outPkg : String) (col : List Expr) (l : Nat)
    (results : List ResultField) (body : List Stmt) :
    parseFunction outPkg ⟨col, l⟩ results body
      = ⟨col ++ schedFunction outPkg results body,
          max l (hmaxFunction outPkg results body)⟩ := by
  cases hidx : findResultParamIdx results with
  | none => simp [parseFunction, schedFunction, hmaxFunction, hidx]
  | some idx =>
      simp only [parseFunction, schedFunction, hmaxFunction, hidx]
      exact walkStmts_decomp outPkg idx (numFields results) col l body
termination_by (sizeOf body, 1)
decreasing_by all_goals omega

end

theorem parseFuncs_decomp (outPkg : String) (col : List Expr) (l : Nat)
    (ds : List FuncDecl) :
    parseFuncs outPkg ⟨col, l⟩ ds
      = ⟨col ++ schedFuncs outPkg ds, max l (hmaxFuncs outPkg ds)⟩ := by
  induction ds generalizing col l with
  | nil => simp [parseFuncs, schedFuncs, hmaxFuncs]
  | cons d rest ih =>
      simp only [parseFuncs, schedFuncs, hmaxFuncs]
      rw [parseFunction_decomp, ih]
      simp [List.append_assoc, Nat.max_assoc]

theorem cutL_self (p : List Char) : ∀ t, cutL p (p ++ t) = some t := by
  induction p with
  | nil => intro t; rfl
  | cons a p ih => intro t; simp [cutL, ih]

theorem cutPfx_self (p t : String) : cutPfx p (p ++ t) = some t := by
  have hdata : (p ++ t).data = p.data ++ t.data := rfl
  simp only [cutPfx, hdata, cutL_self]
  rfl

/-- The synthesized wrapper is classified skip by `ParseRetParam`, and its
embedded number is harvested with `max`. -/
theorem parseRetParam_wrap (out : String) (k : Nat) (e : Expr) (l : Nat) :
    parseRetParam out (wrapExpr out k e) l = (true, max l k) := by
  have hmax : (if l < k then k else l) = max l k := by split_ifs <;> omega
  simp [wrapExpr, parseRetParam, cutPfx_self, atoi_natToStr, hmax]

/-- Harvest contribution of `k` freshly wrapped sites numbered `c+1 .. c+k`:
their maximum `c + k`, or `0` when none were wrapped. -/
def maxNums (c k : Nat) : Nat :=
  if k = 0 then 0 else c + k

theorem maxNums_comp (c k1 k2 H1 H2 : Nat) :
    max (max H1 (maxNums c k1)) (max H2 (maxNums (c + k1) k2))
      = max (max H1 H2) (maxNums c (k1 + k2)) := by
  simp only [maxNums]
  split_ifs <;> omega

theorem parseRetParam_not_skip_snd (out : String) (rp : Expr) (l : Nat) :
    (parseRetParam out rp l).1 = false → (parseRetParam out rp l).2 = l := by
  unfold parseRetParam
  repeat' split
  all_goals simp

mutual

theorem rwStmt_spec (outPkg : String) (retErrIdx retNumFields c : Nat) (s : Stmt) :
    (rwStmt outPkg retErrIdx retNumFields c s).2
        = c + (schedStmt outPkg retErrIdx retNumFields s).length
    ∧ schedStmt outPkg retErrIdx retNumFields
        (rwStmt outPkg retErrIdx retNumFields c s).1 = []
    ∧ hmaxStmt outPkg retErrIdx retNumFields
        (rwStmt outPkg retErrIdx retNumFields c s).1
      = max (hmaxStmt outPkg retErrIdx retNumFields s)
          (maxNums c (schedStmt outPkg retErrIdx retNumFields s).length) := by
  cases s with
  | ret results =>
      by_cases hlen : results.length ≠ retNumFields
      · simp [rwStmt, schedStmt, hmaxStmt, hlen, maxNums]
      · cases hget : results[retErrIdx]? with
        | none => simp [rwStmt, schedStmt, hmaxStmt, hlen, hget, maxNums]
        | some rp =>
            by_cases hnil : isNilIdent rp
            · simp [rwStmt, schedStmt, hmaxStmt, hlen, hget, hnil, maxNums]
            · by_cases hskip : (parseRetParam outPkg rp 0).1 = true
              · simp [rwStmt, schedStmt, hmaxStmt, hlen, hget, hnil, hskip, maxNums]
              · have hlt : retErrIdx < results.length := (List.getElem?_eq_some.mp hget).1
                have hset_len :
                    (results.set retErrIdx (wrapExpr outPkg (c + 1) rp)).length
                      = results.length := List.length_set results retErrIdx _
                have hset_get :
                    (results.set retErrIdx (wrapExpr outPkg (c + 1) rp))[retErrIdx]?
                      = some (wrapExpr outPkg (c + 1) rp) := List.getElem?_set_eq hlt
                have hwrap := parseRetParam_wrap outPkg (c + 1) rp 0
                have hnil2 : isNilIdent (wrapExpr outPkg (c + 1) rp) = false := rfl
                have hfalse : (parseRetParam outPkg rp 0).1 = false := by
                  simpa using hskip
                have hsnd0 : (parseRetParam outPkg rp 0).2 = 0 :=
                  parseRetParam_not_skip_snd outPkg rp 0 hfalse
                simp [rwStmt, schedStmt, hmaxStmt, hlen, hget, hnil, hskip, maxNums,
                  hset_len, hset_get, hwrap, hsnd0, hnil2]
  | funcLit results body =>
      have h := rwFunction_spec outPkg c results body
      simp only [rwStmt, schedStmt, hmaxStmt]
      exact h
  | block stmts =>
      have h := rwStmts_spec outPkg retErrIdx retNumFields c stmts
      simp only [rwStmt, schedStmt, hmaxStmt]
      exact h
termination_by (sizeOf s, 2)
decreasing_by all_goals (simp_wf; omega)

theorem rwStmts_spec (outPkg : String) (retErrIdx retNumFields c : Nat)
    (sl : List Stmt) :
    (rwStmts outPkg retErrIdx retNumFields c sl).2
        = c + (schedStmts outPkg retErrIdx retNumFields sl).length
    ∧ schedStmts outPkg retErrIdx retNumFields
        (rwStmts outPkg retErrIdx retNumFields c sl).1 = []
    ∧ hmaxStmts outPkg retErrIdx retNumFields
        (rwStmts outPkg retErrIdx retNumFields c sl).1
      = max (hmaxStmts outPkg retErrIdx retNumFields sl)
          (maxNums c (schedStmts outPkg retErrIdx retNumFields sl).length) := by
  cases sl with
  | nil => simp [rwStmts, schedStmts, hmaxStmts, maxNums]
  | cons s rest =>
      obtain ⟨h1a, h1b, h1c⟩ := rwStmt_spec outPkg retErrIdx retNumFields c s
      simp only [rwStmts, schedStmts, hmaxStmts, List.length_append]
      rw [h1a]
      obtain ⟨h2a, h2b, h2c⟩ := rwStmts_spec outPkg retErrIdx retNumFields
        (c + (schedStmt outPkg retErrIdx retNumFields s).length) rest
      refine ⟨?_, ?_, ?_⟩
      · rw [h2a]; omega
      · rw [h1b, h2b]; simp
      · rw [h1c, h2c]
        exact maxNums_comp c _ _ _ _
termination_by (sizeOf sl, 0)
decreasing_by all_goals (simp_wf; omega)

theorem rwFunction_spec (outPkg : String) (c : Nat) (results : List ResultField)
    (body : List Stmt) :
    (rwFunction outPkg c results body).2
        = c + (schedFunction outPkg results body).length
    ∧ schedFunction outPkg results (rwFunction outPkg c results body).1 = []
    ∧ hmaxFunction outPkg results (rwFunction outPkg c results body).1
      = max (hmaxFunction outPkg results body)
          (maxNums c (schedFunction outPkg results body).length) := by
  cases hidx : findResultParamIdx results with
  | none => simp [rwFunction, schedFunction, hmaxFunction, hidx, maxNums]
  | some idx =>
      simp only [rwFunction, schedFunction, hmaxFunction, hidx]
      exact rwStmts_spec outPkg idx (numFields results) c body
termination_by (sizeOf body, 1)
decreasing_by all_goals omega

end

theorem rwFuncs_spec (outPkg : String) (c : Nat) (ds : List FuncDecl) :
    (rwFuncs outPkg c ds).2 = c + (schedFuncs outPkg ds).length
    ∧ schedFuncs outPkg (rwFuncs outPkg c ds).1 = []
    ∧ hmaxFuncs outPkg (rwFuncs outPkg c ds).1
      = max (hmaxFuncs outPkg ds) (maxNums c (schedFuncs outPkg ds).length) := by
  induction ds generalizing c with
  | nil => simp [rwFuncs, schedFuncs, hmaxFuncs, maxNums]
  | cons d rest ih =>
      obtain ⟨h1a, h1b, h1c⟩ := rwFunction_spec outPkg c d.results d.body
      simp only [rwFuncs, schedFuncs, hmaxFuncs, List.length_append]
      rw [h1a]
      obtain ⟨h2a, h2b, h2c⟩ :=
        ih (c + (schedFunction outPkg d.results d.body).length)
      refine ⟨?_, ?_, ?_⟩
      · rw [h2a]; omega
      · rw [h1b, h2b]; simp
      · rw [h1c, h2c]
        exact maxNums_comp c _ _ _ _

/-- One pipeline run's discovery phase on a package tree: `Parser.Parse`
with the generator's callback, starting from a fresh generator
(`lastErrNum = 0`), as `run` in main.go wires it. -/
def pipelineParse (outPkg : String) (funcs : List FuncDecl) : PState :=
  parseFuncs outPkg ⟨[], 0⟩ funcs

/-- The counter value when the run finishes: `Generator.Generate` advances
`lastErrNum` once per scheduled node after the recovered maximum. -/
def runCounter (outPkg : String) (funcs : List FuncDecl) : Nat :=
  (pipelineParse outPkg funcs).lastErrNum
    + (pipelineParse outPkg funcs).errsToEdit.length

/-- The AST image of the tree after the run's splices are applied: every
scheduled site wrapped with its assigned number, everything else untouched. -/
def rewrittenTree (outPkg : String) (funcs : List FuncDecl) : List FuncDecl :=
  (rwFuncs outPkg (pipelineParse outPkg funcs).lastErrNum funcs).1

theorem pipelineParse_eq (outPkg : String) (fs : List FuncDecl) :
    pipelineParse outPkg fs = ⟨schedFuncs outPkg fs, hmaxFuncs outPkg fs⟩ := by
  unfold pipelineParse
  rw [parseFuncs_decomp]
  simp

theorem max_maxNums (h k : Nat) : max h (maxNums h k) = h + k := by
  unfold maxNums
  split_ifs <;> omega

/-- C2: running the pipeline a second time on the output of a first run
schedules zero new edits — every expression the first run rewrote into
`<out>.New(<out>.N_<k>, <orig>)` is classified already-wrapped and skipped
(first conjunct), the second run's discovery returns an empty edit list while
recovering exactly the first run's final counter (second conjunct), the
second run therefore ends at the same counter (third conjunct), and the
companion file is regenerated byte-identically (fourth conjunct). -/
theorem c2_idempotent_second_run (outPkg : String) (funcs : List FuncDecl)
    (tmplExec : String → String → String) (k l : Nat) (e : Expr) :
    parseRetParam outPkg (wrapExpr outPkg k e) l = (true, max l k)
    ∧ pipelineParse outPkg (rewrittenTree outPkg funcs)
        = ⟨[], runCounter outPkg funcs⟩
    ∧ runCounter outPkg (rewrittenTree outPkg funcs) = runCounter outPkg funcs
    ∧ genOutputFile tmplExec outPkg (runCounter outPkg (rewrittenTree outPkg funcs))
        = genOutputFile tmplExec outPkg (runCounter outPkg funcs) := by
  have hL : (pipelineParse outPkg funcs).lastErrNum = hmaxFuncs outPkg funcs := by
    rw [pipelineParse_eq]
  have hS : (pipelineParse outPkg funcs).errsToEdit = schedFuncs outPkg funcs := by
    rw [pipelineParse_eq]
  obtain ⟨ha, hb, hc⟩ := rwFuncs_spec outPkg (hmaxFuncs outPkg funcs) funcs
  have hrw : rewrittenTree outPkg funcs
      = (rwFuncs outPkg (hmaxFuncs outPkg funcs) funcs).1 := by
    unfold rewrittenTree
    rw [hL]
  have hN : runCounter outPkg funcs
      = hmaxFuncs outPkg funcs + (schedFuncs outPkg funcs).length := by
    unfold runCounter
    rw [hL, hS]
  have h2 : pipelineParse outPkg (rewrittenTree outPkg funcs)
      = ⟨[], runCounter outPkg funcs⟩ := by
    rw [hrw, pipelineParse_eq, hb, hc, max_maxNums, hN]
  have h3 : runCounter outPkg (rewrittenTree outPkg funcs)
      = runCounter outPkg funcs := by
    unfold runCounter
    rw [h2]
    simp [runCounter]
  exact ⟨parseRetParam_wrap outPkg k e l, h2, h3, by rw [h3]⟩

/-! ## C3: counter seeding, monotone fresh identifiers, gapless registry -/

/-- Total number of scheduled nodes across all packages of `errNodesMap`. -/
def totalNodes (pkgs : List (List Expr)) : Nat :=
  (pkgs.map List.length).sum

theorem assignPkg_snd (l : Nat) (nodes : List Expr) :
    (assignPkg l nodes).map Prod.snd = List.range' (l + 1) nodes.length := by
  unfold assignPkg
  rw [List.map_map]
  have h2 : (Prod.snd ∘ fun p : Nat × Expr => (p.2, l + p.1 + 1))
      = ((fun i => l + i + 1) ∘ Prod.fst) := rfl
  rw [h2, ← List.map_map, List.enum_map_fst, List.range'_eq_map_range]
  congr 1
  funext i
  omega

theorem assignAll_fst (l : Nat) (pkgs : List (List Expr)) :
    (assignAll l pkgs).1 = l + totalNodes pkgs := by
  induction pkgs generalizing l with
  | nil => simp [assignAll, totalNodes]
  | cons nodes rest ih =>
      simp only [assignAll]
      rw [ih (l + nodes.length)]
      simp [totalNodes]
      omega

theorem assignAll_snd (l : Nat) (pkgs : List (List Expr)) :
    ((assignAll l pkgs).2.flatten).map Prod.snd
      = List.range' (l + 1) (totalNodes pkgs) := by
  induction pkgs generalizing l with
  | nil => simp [assignAll, totalNodes]
  | cons nodes rest ih =>
      have hflat : (assignAll l (nodes :: rest)).2.flatten
          = assignPkg l nodes ++ (assignAll (l + nodes.length) rest).2.flatten := rfl
      rw [hflat, List.map_append, assignPkg_snd, ih (l + nodes.length)]
      have harith : l + nodes.length + 1 = (l + 1) + nodes.length := by omega
      rw [harith]
      have happ := List.range'_append_1 (l + 1) nodes.length (totalNodes rest)
      rw [happ]
      congr 1
      simp only [totalNodes, List.map_cons, List.sum_cons]
      omega

theorem constEntries_snd (n : Nat) :
    (constEntries n).map Prod.snd = List.range' 1 n := by
  unfold constEntries
  rw [List.map_map, List.range'_eq_map_range]
  congr 1
  funext i
  simp
  omega

/-- C3: the identifier counter is seeded via `max(current, parsed)` from
already-wrapped sites (first conjunct); the numbers `Generator.Generate`
assigns to the scheduled nodes form, in assignment order, exactly the range
`recovered+1 .. N` (second conjunct), so each is strictly above the recovered
maximum (third conjunct) and they are duplicate-free (fourth conjunct); the
final counter is the recovered maximum plus the number of scheduled nodes
(fifth conjunct); and the registry then declares the gapless sequence
`1 .. N` (sixth conjunct). -/
theorem c3_counter_monotonicity (outPkg : String) (k l : Nat) (e : Expr)
    (l0 : Nat) (pkgs : List (List Expr)) :
    (parseRetParam outPkg (wrapExpr outPkg k e) l).2 = max l k
    ∧ ((assignAll l0 pkgs).2.flatten).map Prod.snd
        = List.range' (l0 + 1) (totalNodes pkgs)
    ∧ (∀ n ∈ ((assignAll l0 pkgs).2.flatten).map Prod.snd, l0 < n)
    ∧ (((assignAll l0 pkgs).2.flatten).map Prod.snd).Nodup
    ∧ (assignAll l0 pkgs).1 = l0 + totalNodes pkgs
    ∧ (constEntries (assignAll l0 pkgs).1).map Prod.snd
        = List.range' 1 (assignAll l0 pkgs).1 := by
  refine ⟨by rw [parseRetParam_wrap], assignAll_snd l0 pkgs, ?_, ?_,
    assignAll_fst l0 pkgs, constEntries_snd _⟩
  · rw [assignAll_snd]
    intro n hn
    have := List.mem_range'_1.mp hn
    omega
  · rw [assignAll_snd]
    simp [List.nodup_range']

/-! ## C4: the companion file's constant block -/

/-- The generator state fields `genOutputFile` may see (`GenOptions` plus the
counter); only the output package name and `lastErrNum` influence the
rendering. -/
structure GenState where
  outPackageName : String
  outPath : String
  dryRun : Bool
  lastErrNum : Nat

/-- `Generator.genOutputFile` on the generator state. -/
def genOutputFileG (tmplExec : String → String → String) (g : GenState) : String :=
  genOutputFile tmplExec g.outPackageName g.lastErrNum

theorem constBlock_entries (n : Nat) :
    constBlock n
      = "const (\n"
          ++ String.join ((constEntries n).map
              (fun p => "\t" ++ p.1 ++ " ErrNum = " ++ natToStr p.2 ++ "\n"))
          ++ ")" := by
  unfold constBlock constEntries
  rw [List.map_map]
  have hfun : (fun i => constLine (i + 1))
      = ((fun p : String × Nat => "\t" ++ p.1 ++ " ErrNum = " ++ natToStr p.2 ++ "\n")
          ∘ fun i => (constErrPfx ++ natToStr (i + 1), i + 1)) := by
    funext i
    simp [constLine, String.append_assoc]
  rw [hfun]

/-- C4: for final counter `N`, the const block renders exactly the entries
`(N_<i>, i)` for `i` in `1..N` (first conjunct), whose values are the gapless
ascending sequence `1..N` (second conjunct) without duplicates (fifth
conjunct); each `i` in `1..N` is declared (third conjunct) and every declared
entry's name is the prefix followed by its value's decimal digits (fourth
conjunct), so each `i` has exactly one constant, named `N_<i>`; rendering is a
function of the template, package name and counter alone, so generation is
byte-identical across repetitions and across states agreeing on those (sixth
conjunct). -/
theorem c4_companion_constants (tmplExec : String → String → String)
    (n i : Nat) (g1 g2 : GenState)
    (hi1 : 1 ≤ i) (hi2 : i ≤ n)
    (hname : g1.outPackageName = g2.outPackageName)
    (hnum : g1.lastErrNum = g2.lastErrNum) :
    constBlock n
        = "const (\n"
            ++ String.join ((constEntries n).map
                (fun p => "\t" ++ p.1 ++ " ErrNum = " ++ natToStr p.2 ++ "\n"))
            ++ ")"
    ∧ (constEntries n).map Prod.snd = List.range' 1 n
    ∧ (constErrPfx ++ natToStr i, i) ∈ constEntries n
    ∧ (∀ p ∈ constEntries n, p.1 = constErrPfx ++ natToStr p.2)
    ∧ ((constEntries n).map Prod.snd).Nodup
    ∧ genOutputFileG tmplExec g1 = genOutputFileG tmplExec g2 := by
  refine ⟨constBlock_entries n, constEntries_snd n, ?_, ?_, ?_, ?_⟩
  · unfold constEntries
    refine List.mem_map.mpr ⟨i - 1, List.mem_range.mpr (by omega), ?_⟩
    have hsucc : i - 1 + 1 = i := by omega
    rw [hsucc]
  · intro p hp
    obtain ⟨j, _, hj⟩ := List.mem_map.mp hp
    rw [← hj]
  · rw [constEntries_snd n]
    simp [List.nodup_range']
  · unfold genOutputFileG genOutputFile
    rw [hname, hnum]

/-- Witness for C4 at counter 3, constant 2, and two generator states that
agree on package name and counter but differ elsewhere. -/
theorem c4_companion_constants_witness :
    (1 ≤ 2 ∧ 2 ≤ 3
        ∧ (GenState.mk "errnums" "./a/errnums.go" false 3).outPackageName
            = (GenState.mk "errnums" "./b/errnums.go" true 3).outPackageName
        ∧ (GenState.mk "errnums" "./a/errnums.go" false 3).lastErrNum
            = (GenState.mk "errnums" "./b/errnums.go" true 3).lastErrNum)
    ∧ (constBlock 3
          = "const (\n"
              ++ String.join ((constEntries 3).map
                  (fun p => "\t" ++ p.1 ++ " ErrNum = " ++ natToStr p.2 ++ "\n"))
              ++ ")"
        ∧ (constEntries 3).map Prod.snd = List.range' 1 3
        ∧ (constErrPfx ++ natToStr 2, 2) ∈ constEntries 3
        ∧ (∀ p ∈ constEntries 3, p.1 = constErrPfx ++ natToStr p.2)
        ∧ ((constEntries 3).map Prod.snd).Nodup
        ∧ genOutputFileG (fun a b => a ++ b) (GenState.mk "errnums" "./a/errnums.go" false 3)
            = genOutputFileG (fun a b => a ++ b) (GenState.mk "errnums" "./b/errnums.go" true 3)) :=
  ⟨⟨by decide, by decide, rfl, rfl⟩,
    c4_companion_constants (fun a b => a ++ b) 3 2
      (GenState.mk "errnums" "./a/errnums.go" false 3)
      (GenState.mk "errnums" "./b/errnums.go" true 3)
      (by decide) (by decide) rfl rfl⟩

/-! ## C5: what the classifier actually skips -/

/-- The shape `ParseRetParam` actually requires before setting `skip`: a call
whose function is the selector `<outPkg>.New` — with no condition at all on
the argument list. -/
def isOutNewCall (outPkg : String) (e : Expr) : Bool :=
  match e with
  | .call fn _ =>
      match fn with
      | .sel x selName =>
          if selName ≠ "New" then false
          else
            match x with
            | .ident pname => if pname ≠ outPkg then false else true
            | _ => false
      | _ => false
  | _ => false

/-- The already-wrapped form as the spec words it: a call
`<registryPackage>.New(<identifierConstant>, <innerExpr>)` whose qualifier is
the configured output package and whose FIRST argument is a qualified
reference named `<prefix><digits>`.  Stated from the spec for comparison with
the source's classifier. -/
def isWrappedFormSpec (outPkg : String) (e : Expr) : Bool :=
  match e with
  | .call (.sel (.ident p) "New") [.sel _ numName, _] =>
      p == outPkg
        && (match cutPfx constErrPfx numName with
            | some ds => (atoi ds).isSome
            | none => false)
  | _ => false

theorem parseRetParam_skip_iff (outPkg : String) (e : Expr) (l : Nat) :
    (parseRetParam outPkg e l).1 = isOutNewCall outPkg e := by
  unfold parseRetParam isOutNewCall
  repeat' split
  all_goals simp_all

/-- C5 counterexample: `errnums.New(err)` — a call of `errnums.New` whose
single argument is a bare identifier, not an `N_<digits>` constant. -/
def c5Bad : Expr :=
  .call (.sel (.ident "errnums") "New") [.ident "err"]

/-- C5 is false as stated: `c5Bad` is not of the wrapped form the claim
requires (its first argument is no qualified `N_<digits>` reference), yet the
classifier marks it skip-already-wrapped instead of scheduling it. -/
theorem c5_counterexample :
    (parseRetParam "errnums" c5Bad 0).1 = true
    ∧ isWrappedFormSpec "errnums" c5Bad = false :=
  ⟨rfl, rfl⟩

/-- C5 amended: a candidate is classified skip-already-wrapped if and only if
it is a call whose function is the selector `<outPkg>.New`, regardless of its
arguments; the `N_<digits>` first-argument check gates only the counter
harvesting.  Candidates reaching the classifier that are not of that shape
are scheduled. -/
theorem c5_amended_classification (outPkg : String) (e : Expr) (l : Nat)
    (st : PState) (results : List Expr) (idx nf : Nat) (rp : Expr)
    (hlen : results.length = nf) (hget : results[idx]? = some rp)
    (hnil : isNilIdent rp = false) :
    (parseRetParam outPkg e l).1 = isOutNewCall outPkg e
    ∧ (parseResultParams outPkg idx nf results st).errsToEdit
        = st.errsToEdit ++ (if isOutNewCall outPkg rp then [] else [rp]) := by
  refine ⟨parseRetParam_skip_iff outPkg e l, ?_⟩
  have hskip := parseRetParam_skip_iff outPkg rp st.lastErrNum
  by_cases hc : isOutNewCall outPkg rp
  · simp [parseResultParams, hlen, hget, hnil, hskip, hc]
  · simp [parseResultParams, hlen, hget, hnil, hskip, hc]

/-- Witness for C5's amended classification at a concrete return site. -/
theorem c5_amended_classification_witness :
    (([Expr.ident "err"] : List Expr).length = 1
        ∧ ([Expr.ident "err"] : List Expr)[0]? = some (Expr.ident "err")
        ∧ isNilIdent (Expr.ident "err") = false)
    ∧ ((parseRetParam "errnums" c5Bad 7).1 = isOutNewCall "errnums" c5Bad
        ∧ (parseResultParams "errnums" 0 1 [Expr.ident "err"] ⟨[], 7⟩).errsToEdit
            = ([] : List Expr)
                ++ (if isOutNewCall "errnums" (Expr.ident "err")
                    then [] else [Expr.ident "err"])) :=
  ⟨⟨rfl, rfl, rfl⟩,
    c5_amended_classification "errnums" c5Bad 7 ⟨[], 7⟩ [Expr.ident "err"] 0 1
      (Expr.ident "err") rfl rfl rfl⟩

/-! ## C6: what the declaration filter retains -/

/-- Number of separate error-typed entries in a declaration's result field
list (0 for non-functions). -/
def errFieldCnt (d : Decl) : Nat :=
  match d with
  | .funcDecl fn => (fn.results.filter (fun r => isErrIdent r.type)).length
  | .otherDecl _ => 0

/-- The retained list as the claim words it: each qualifying declaration
exactly once, in original order.  Stated from the spec for comparison. -/
def retainedSpec (decls : List Decl) : List Decl :=
  decls.filter (fun d => decide (0 < errFieldCnt d))

theorem fieldsFold_zero (d : Decl) (fields : List ResultField)
    (j : Nat) (arr : List Decl)
    (h : fields.filter (fun r => isErrIdent r.type) = []) :
    fields.foldl (fieldStepF d) (some (j, arr)) = some (j, arr) := by
  induction fields with
  | nil => rfl
  | cons r rest ih =>
      rw [List.filter_cons] at h
      by_cases hr : isErrIdent r.type
      · simp [hr] at h
      · rw [if_neg (by simpa using hr)] at h
        have hstep : fieldStepF d (some (j, arr)) r = some (j, arr) := by
          simp [fieldStepF, hr]
        rw [List.foldl_cons, hstep]
        exact ih h

theorem fieldsFold_one (d : Decl) (fields : List ResultField)
    (j : Nat) (arr : List Decl)
    (h : (fields.filter (fun r => isErrIdent r.type)).length = 1)
    (hj : j < arr.length) :
    fields.foldl (fieldStepF d) (some (j, arr)) = some (j + 1, arr.set j d) := by
  induction fields with
  | nil => simp at h
  | cons r rest ih =>
      rw [List.filter_cons] at h
      by_cases hr : isErrIdent r.type
      · rw [if_pos (by simpa using hr), List.length_cons] at h
        have hlen0 : (rest.filter (fun r => isErrIdent r.type)).length = 0 := by
          omega
        have hrest : rest.filter (fun r => isErrIdent r.type) = [] :=
          List.length_eq_zero.mp hlen0
        have hstep : fieldStepF d (some (j, arr)) r = some (j + 1, arr.set j d) := by
          simp [fieldStepF, hr, hj]
        rw [List.foldl_cons, hstep]
        exact fieldsFold_zero d rest (j + 1) (arr.set j d) hrest
      · rw [if_neg (by simpa using hr)] at h
        have hstep : fieldStepF d (some (j, arr)) r = some (j, arr) := by
          simp [fieldStepF, hr]
        rw [List.foldl_cons, hstep]
        exact ih h

theorem filterStep_cnt_zero (arr : List Decl) (i j : Nat) (d : Decl)
    (hget : arr[i]? = some d) (hcnt : errFieldCnt d = 0) :
    filterStep arr i j = some (j, arr) := by
  unfold filterStep
  rw [hget]
  cases d with
  | otherDecl t => rfl
  | funcDecl fn =>
      by_cases hemp : fn.results.isEmpty
      · simp [hemp]
      · simp only [hemp, Bool.false_eq_true, if_false]
        have hfil : fn.results.filter (fun r => isErrIdent r.type) = [] := by
          have : (fn.results.filter (fun r => isErrIdent r.type)).length = 0 := by
            simpa [errFieldCnt] using hcnt
          exact List.length_eq_zero.mp this
        exact fieldsFold_zero (.funcDecl fn) fn.results j arr hfil

theorem filterStep_cnt_one (arr : List Decl) (i j : Nat) (d : Decl)
    (hget : arr[i]? = some d) (hcnt : errFieldCnt d = 1) (hj : j < arr.length) :
    filterStep arr i j = some (j + 1, arr.set j d) := by
  unfold filterStep
  rw [hget]
  cases d with
  | otherDecl t => simp [errFieldCnt] at hcnt
  | funcDecl fn =>
      have hlen : (fn.results.filter (fun r => isErrIdent r.type)).length = 1 := by
        simpa [errFieldCnt] using hcnt
      have hemp : fn.results.isEmpty = false := by
        cases hres : fn.results with
        | nil => rw [hres] at hlen; simp at hlen
        | cons a l => simp [hres]
      simp only [hemp, Bool.false_eq_true, if_false]
      exact fieldsFold_one (.funcDecl fn) fn.results j arr hlen hj

theorem retainedSpec_take_succ (orig : List Decl) (i : Nat) (hi : i < orig.length) :
    retainedSpec (orig.take (i + 1))
      = retainedSpec (orig.take i)
          ++ (if 0 < errFieldCnt orig[i] then [orig[i]] else []) := by
  unfold retainedSpec
  rw [List.take_succ, List.filter_append]
  congr 1
  rw [List.getElem?_eq_getElem hi]
  by_cases h : 0 < errFieldCnt orig[i] <;> simp [h]

theorem filterLoop_inv (orig : List Decl)
    (h1 : ∀ d ∈ orig, errFieldCnt d ≤ 1) :
    ∀ (m i : Nat) (arr : List Decl) (j : Nat),
      i + m = orig.length →
      arr.length = orig.length →
      j ≤ i →
      arr.take j = retainedSpec (orig.take i) →
      j = (retainedSpec (orig.take i)).length →
      arr.drop i = orig.drop i →
      ∃ arrf,
        (List.range' i m).foldl filterLoopF (some (j, arr))
            = some ((retainedSpec orig).length, arrf)
        ∧ arrf.take (retainedSpec orig).length = retainedSpec orig := by
  intro m
  induction m with
  | zero =>
      intro i arr j him hlen hj htake hjlen hdrop
      have hieq : i = orig.length := by omega
      have horig : orig.take i = orig := by
        rw [hieq]
        exact List.take_length orig
      refine ⟨arr, ?_, ?_⟩
      · simp only [List.range'_zero, List.foldl_nil]
        rw [hjlen, horig]
      · rw [← horig, ← hjlen, htake, horig]
  | succ m ih =>
      intro i arr j him hlen hj htake hjlen hdrop
      have hi : i < orig.length := by omega
      have hgetA : arr[i]? = orig[i]? := by
        have ha := List.getElem?_drop arr i 0
        have hb := List.getElem?_drop orig i 0
        rw [hdrop] at ha
        simpa using ha.symm.trans hb
      have hgetO : orig[i]? = some orig[i] := List.getElem?_eq_getElem hi
      have hmem : orig[i] ∈ orig := List.getElem_mem hi
      have hd1 : errFieldCnt orig[i] ≤ 1 := h1 orig[i] hmem
      have hrange : List.range' i (m + 1) = i :: List.range' (i + 1) m := rfl
      rw [hrange, List.foldl_cons]
      have hstep : filterLoopF (some (j, arr)) i = filterStep arr i j := rfl
      rw [hstep]
      have hdrop1 : arr.drop (i + 1) = orig.drop (i + 1) := by
        have ha : arr.drop (i + 1) = (arr.drop i).drop 1 := by
          rw [List.drop_drop]
        have hb : orig.drop (i + 1) = (orig.drop i).drop 1 := by
          rw [List.drop_drop]
        rw [ha, hb, hdrop]
      cases hcnt : errFieldCnt orig[i] with
      | zero =>
          rw [filterStep_cnt_zero arr i j orig[i] (by rw [hgetA, hgetO]) hcnt]
          have hspec : retainedSpec (orig.take (i + 1)) = retainedSpec (orig.take i) := by
            rw [retainedSpec_take_succ orig i hi, hcnt]
            simp
          exact ih (i + 1) arr j (by omega) hlen (by omega)
            (by rw [htake, hspec]) (by rw [hjlen, hspec]) hdrop1
      | succ c =>
          have hc1 : errFieldCnt orig[i] = 1 := by omega
          have hjlt : j < arr.length := by omega
          rw [filterStep_cnt_one arr i j orig[i] (by rw [hgetA, hgetO]) hc1 hjlt]
          have hspec : retainedSpec (orig.take (i + 1))
              = retainedSpec (orig.take i) ++ [orig[i]] := by
            rw [retainedSpec_take_succ orig i hi, hc1]
            simp
          have hsetlen : (arr.set j orig[i]).length = orig.length := by
            rw [List.length_set]
            exact hlen
          have hsettake : (arr.set j orig[i]).take (j + 1)
              = retainedSpec (orig.take (i + 1)) := by
            rw [List.set_eq_take_cons_drop orig[i] hjlt]
            have hjtl : (arr.take j).length = j := by
              rw [List.length_take]
              omega
            have : ((arr.take j).length + 1) = j + 1 := by omega
            rw [← this, List.take_append]
            rw [hspec, htake]
            simp
          have hsetdrop : (arr.set j orig[i]).drop (i + 1) = orig.drop (i + 1) := by
            rw [List.drop_set_of_lt _ _ (by omega : j < i + 1)]
            exact hdrop1
          exact ih (i + 1) (arr.set j orig[i]) (j + 1) (by omega) hsetlen
            (by omega) hsettake (by rw [hspec]; simp; omega) hsetdrop

/-- With at most one error-typed result entry per declaration (the inner
loop then fires at most once per declaration), the in-place compaction
equals the keep-once filter of the spec. -/
theorem filterFileDecls_correct (decls : List Decl)
    (h : ∀ d ∈ decls, errFieldCnt d ≤ 1) :
    filterFileDecls decls = some (retainedSpec decls) := by
  obtain ⟨arrf, hfold, htake⟩ := filterLoop_inv decls h decls.length 0 decls 0
    (by omega) rfl (by omega) (by simp [retainedSpec]) (by simp [retainedSpec]) rfl
  unfold filterFileDecls
  rw [List.range_eq_range', hfold]
  simp [htake]

theorem filterPkgFiles_correct (files : List (List Decl))
    (h : ∀ f ∈ files, ∀ d ∈ f, errFieldCnt d ≤ 1) :
    filterPkgFiles files
      = some ((files.map retainedSpec).filter (fun f => decide (0 < f.length))) := by
  suffices hgo : ∀ (fs : List (List Decl)), (∀ f ∈ fs, ∀ d ∈ f, errFieldCnt d ≤ 1) →
      ∀ (kept : List (List Decl)),
      fs.foldl
        (fun acc f =>
          match acc with
          | none => none
          | some kept =>
              match filterFileDecls f with
              | none => none
              | some f2 => some (if f2.length > 0 then kept ++ [f2] else kept))
        (some kept)
      = some (kept ++ (fs.map retainedSpec).filter (fun f => decide (0 < f.length))) by
    simpa [filterPkgFiles] using hgo files h []
  intro fs
  induction fs with
  | nil => intro _ kept; simp
  | cons f rest ih =>
      intro hall kept
      have hf := filterFileDecls_correct f (hall f (by simp))
      have hrest : ∀ g ∈ rest, ∀ d ∈ g, errFieldCnt d ≤ 1 := by
        intro g hg
        exact hall g (by simp [hg])
      simp only [List.foldl_cons, hf, List.map_cons, List.filter_cons]
      by_cases hk : 0 < (retainedSpec f).length
      · rw [if_pos hk, ih hrest]
        simp [hk, List.append_assoc]
      · rw [if_neg hk, ih hrest]
        simp [hk]

/-- C6 failing declaration: `func f() (error, error)` — two separate
error-typed result entries. -/
def c6DupDecl : Decl :=
  .funcDecl ⟨[⟨[], .ident "error"⟩, ⟨[], .ident "error"⟩], []⟩

/-- A non-function declaration preceding it. -/
def c6OtherDecl : Decl := .otherDecl "var x int"

/-- A function with exactly one error-typed result. -/
def c6OneErrDecl : Decl := .funcDecl ⟨[⟨[], .ident "error"⟩], []⟩

/-- A function with a result list but no error-typed result. -/
def c6NoErrDecl : Decl := .funcDecl ⟨[⟨[], .ident "int"⟩], []⟩

/-- C6: the code is wrong on multi-error-result functions.  The inner loop
of `filterPackageDecls` writes the declaration at the compaction index once
per error-typed result entry instead of once per declaration: for a file
whose only declaration is `func f() (error, error)` the second write runs
past the slice — an index-out-of-range panic (first conjunct) — and when a
non-function declaration precedes it, the function is retained TWICE
(second conjunct) although the claim requires exactly once (third conjunct).
With at most one error-typed entry per declaration the filter behaves as
claimed: retained exactly once in order (fourth conjunct) and files with
zero retained declarations are excluded (fifth conjunct). -/
theorem c6_filter_retention :
    filterFileDecls [c6DupDecl] = none
    ∧ filterFileDecls [c6OtherDecl, c6DupDecl] = some [c6DupDecl, c6DupDecl]
    ∧ retainedSpec [c6OtherDecl, c6DupDecl] = [c6DupDecl]
    ∧ filterFileDecls [c6NoErrDecl, c6OneErrDecl] = some [c6OneErrDecl]
    ∧ filterPkgFiles [[c6NoErrDecl], [c6OneErrDecl]] = some [[c6OneErrDecl]] :=
  ⟨rfl, rfl, rfl, rfl, rfl⟩

/-! ## C7: nested anonymous functions use their own signature -/

/-- C7: when the discovery walk reaches an anonymous function literal it
restarts `parseFunction` on the literal's own type and body, so the result is
the same under ANY enclosing error index and arity (first conjunct) and is
computed from the literal's own `findResultParamIdx` and `NumFields` (second
conjunct); the rewrite does the same (third conjunct); grouped multi-named
result entries count as multiple positional slots, so in
`(s1, s2 string, e error)` the error slot is index 2 of 3 (fourth and fifth
conjuncts). -/
theorem c7_nested_function_independence (outPkg : String)
    (e1 a1 e2 a2 c : Nat) (st : PState) (results : List ResultField)
    (body : List Stmt) :
    walkStmt outPkg e1 a1 st (.funcLit results body)
        = walkStmt outPkg e2 a2 st (.funcLit results body)
    ∧ walkStmt outPkg e1 a1 st (.funcLit results body)
        = (match findResultParamIdx results with
            | none => st
            | some idx => walkStmts outPkg idx (numFields results) st body)
    ∧ rwStmt outPkg e1 a1 c (.funcLit results body)
        = rwStmt outPkg e2 a2 c (.funcLit results body)
    ∧ findResultParamIdx
        [⟨["s1", "s2"], .ident "string"⟩, ⟨["e"], .ident "error"⟩] = some 2
    ∧ numFields [⟨["s1", "s2"], .ident "string"⟩, ⟨["e"], .ident "error"⟩] = 3 := by
  refine ⟨by simp [walkStmt], ?_, by simp [rwStmt], rfl, rfl⟩
  simp [walkStmt, parseFunction]

/-! ## C8: arity-mismatching return statements are skipped silently -/

/-- C8: a return statement whose result count differs from the enclosing
function's declared result count is skipped: the discovery state is returned
unchanged (no node scheduled, no counter change) and no error is produced —
`parseResultParams` only logs and returns `nil`, so the run continues. -/
theorem c8_arity_mismatch_skipped (outPkg : String) (retErrIdx retNumFields : Nat)
    (results : List Expr) (st : PState)
    (h : results.length ≠ retNumFields) :
    parseResultParams outPkg retErrIdx retNumFields results st = st := by
  simp [parseResultParams, h]

/-- Witness for C8: a bare `return` (zero results) inside a three-result
function. -/
theorem c8_arity_mismatch_skipped_witness :
    ([] : List Expr).length ≠ 3
    ∧ parseResultParams "errnums" 2 3 [] ⟨[], 5⟩ = ⟨[], 5⟩ :=
  ⟨by decide, c8_arity_mismatch_skipped "errnums" 2 3 [] ⟨[], 5⟩ (by decide)⟩

/-! ## C9: identifier assignment depends on the map iteration order -/

/-- A return site in package A. -/
def c9SiteA : Expr := .ident "errA"

/-- A return site in package B. -/
def c9SiteB : Expr := .ident "errB"

/-- C9 fails on the code: `Generator.Generate` iterates
`for pkg, errNodes := range errNodesMap` over a Go map, whose iteration order
is unspecified and randomized between runs.  For the same input tree — two
packages holding one scheduled site each — the two possible iteration orders
assign DIFFERENT identifiers to the same site (`errA` gets 1 in one order and
2 in the other), so two runs need not assign identical identifier values to
identical sites.  The final counter (2) is order-independent. -/
theorem c9_map_order_dependence :
    assignAll 0 [[c9SiteA], [c9SiteB]] = (2, [[(c9SiteA, 1)], [(c9SiteB, 2)]])
    ∧ assignAll 0 [[c9SiteB], [c9SiteA]] = (2, [[(c9SiteB, 1)], [(c9SiteA, 2)]]) :=
  ⟨rfl, rfl⟩

/-! ## C10: the no-source check counts packages, not declarations -/

/-- C10 counterexample: one discovered package whose declaration list is
empty (every file failed the cheap textual pre-filter and parsed as empty).
The total declaration count is zero, yet `parser.New` succeeds — the
`NoSourceFound` error fires only on zero PACKAGES. -/
theorem c10_counterexample :
    newParser 0 [([] : List Decl)] = .ok [[]]
    ∧ totalDecls [([] : List Decl)] = 0 :=
  ⟨rfl, rfl⟩

/-- C10 amended: loading fails with the no-source error exactly when ZERO
compilation units are discovered (first conjunct); when at least one unit
exists and no package reported load errors, loading succeeds regardless of
the total declaration count (second conjunct); and when packages reported
errors the run aborts with that error instead (third conjunct). -/
theorem c10_amended_no_source (pkgs : List (List Decl)) (cnt : Nat)
    (hcnt : 0 < cnt) :
    (newParser 0 pkgs = .error .noPackagesFound ↔ pkgs = [])
    ∧ (pkgs ≠ [] → newParser 0 pkgs = .ok pkgs)
    ∧ newParser cnt pkgs = .error (.pkgLoadErrors cnt) := by
  refine ⟨?_, ?_, ?_⟩
  · by_cases hp : pkgs = [] <;> simp [newParser, hp, List.length_eq_zero]
  · intro hp
    simp [newParser, List.length_eq_zero, hp]
  · simp [newParser, hcnt]

/-- Witness for C10's amended statement at one empty package and two load
errors. -/
theorem c10_amended_no_source_witness :
    0 < 2
    ∧ ((newParser 0 [([] : List Decl)] = .error .noPackagesFound
          ↔ ([([] : List Decl)] : List (List Decl)) = [])
        ∧ (([([] : List Decl)] : List (List Decl)) ≠ []
            → newParser 0 [([] : List Decl)] = .ok [[]])
        ∧ newParser 2 [([] : List Decl)] = .error (.pkgLoadErrors 2)) :=
  ⟨by decide, c10_amended_no_source [[]] 2 (by decide)⟩
